import Mathlib

/-! Shallow embedding of the A3S Context core (Rust crate `a3s-context`):
pathway parsing and rendering, the node and digest data model, the
similarity index, the in-memory storage backend, and the hierarchical
retriever.

Modelling conventions:
* Rust `String` and `str` values are modelled as `List Char`.  Rust string
  indices are byte offsets; in this model they are character offsets, which
  order occurrences identically (UTF-8 is order preserving), so only the
  byte-versus-character unit of caps such as "200 bytes" is abstracted.
* `f32` is modelled as `ℝ`: exact real arithmetic, so floating-point
  rounding is abstracted away and no NaN or infinity value exists; the
  code's explicit zero-norm guards are modelled as written.
* `DashMap` is modelled as an association list; map iteration order, which
  is arbitrary in the source, becomes list order.
* `Uuid` and `DateTime<Utc>` are modelled as `Nat` values supplied by the
  caller, making the source's implicit clock and id generator explicit.
* `async fn ... -> Result<T>` becomes a pure function into `Except` when the
  source can actually return an error, and a plain pure function when the
  source always returns `Ok`.
-/

namespace A3S

/-- Namespaces of the addressing scheme (`core.rs`, enum `Namespace`). -/
inductive Namespace where
  | knowledge
  | memory
  | capability
  | session
deriving DecidableEq, Repr

/-- `Namespace::as_str` (`core.rs`). -/
def Namespace.asStr : Namespace → List Char
  | .knowledge => "knowledge".toList
  | .memory => "memory".toList
  | .capability => "capability".toList
  | .session => "session".toList

/-- `Namespace::parse` (`core.rs`), also called `Namespace::from_str` at the
use site in `pathway.rs`. -/
def Namespace.fromStr (s : List Char) : Option Namespace :=
  if s = "knowledge".toList then some .knowledge
  else if s = "memory".toList then some .memory
  else if s = "capability".toList then some .capability
  else if s = "session".toList then some .session
  else none

/-- Rank giving the derived `Ord` of the Rust enum (declaration order). -/
def Namespace.rank : Namespace → Nat
  | .knowledge => 0
  | .memory => 1
  | .capability => 2
  | .session => 3

/-- A pathway: namespace plus ordered segments (`pathway.rs`, struct
`Pathway`). -/
structure Pathway where
  ns : Namespace
  segments : List (List Char)
deriving DecidableEq, Repr

/-- Errors of the modelled operations (`error.rs`, enum `A3SError`;
only the variants produced by the modelled code are included). -/
inductive A3SError where
  | invalidPathway (msg : List Char)
  | nodeNotFound (msg : List Char)
deriving DecidableEq, Repr

/-- The whitespace test of Rust's `str::trim` (`char::is_whitespace`),
restricted to the ASCII whitespace characters; Unicode-only whitespace
code points are not modelled. -/
def isWhite (c : Char) : Bool :=
  c = ' ' || c = '\t' || c = '\n' || c = '\r' || c = '\x0b' || c = '\x0c'

/-- Rust `str::trim`: drop whitespace from both ends. -/
def trimChars (l : List Char) : List Char :=
  ((l.dropWhile isWhite).reverse.dropWhile isWhite).reverse

/-- Rust `str::split(sep)` on a character separator. -/
def splitChar (sep : Char) : List Char → List (List Char)
  | [] => [[]]
  | c :: rest =>
    if c = sep then [] :: splitChar sep rest
    else
      match splitChar sep rest with
      | [] => [[c]]
      | h :: t => (c :: h) :: t

/-- `Pathway::PROTOCOL` (`pathway.rs`). -/
def protocol : List Char := "a3s://".toList

/-- The protocol-stripping step of `Pathway::parse` (`pathway.rs` lines
34-43): trim, then drop a leading `a3s://` or a leading slash. -/
def pathBody (s : List Char) : List Char :=
  let t := trimChars s
  if protocol.isPrefixOf t then t.drop protocol.length
  else if t.head? = some '/' then t.drop 1
  else t

/-- The split-and-filter step of `Pathway::parse` (`pathway.rs` line 49):
split on `/` and keep the non-empty parts. -/
def rawParts (s : List Char) : List (List Char) :=
  (splitChar '/' (pathBody s)).filter fun p => !p.isEmpty

/-- `Pathway::parse` (`pathway.rs`). -/
def Pathway.parse (s : List Char) : Except A3SError Pathway :=
  if (pathBody s).isEmpty then
    .error (.invalidPathway "Empty pathway".toList)
  else
    match rawParts s with
    | [] => .error (.invalidPathway "No namespace specified".toList)
    | p0 :: rest =>
      match Namespace.fromStr p0 with
      | none => .error (.invalidPathway ("Invalid namespace: ".toList ++ p0))
      | some ns =>
        match rest.find? (fun seg => seg.isEmpty || seg.contains '\x00') with
        | some seg => .error (.invalidPathway ("Invalid segment: ".toList ++ seg))
        | none => .ok ⟨ns, rest⟩

/-- Rust `Vec::join("/")` on the segment list. -/
def joinSlash : List (List Char) → List Char
  | [] => []
  | [s] => s
  | s :: s2 :: rest => s ++ '/' :: joinSlash (s2 :: rest)

/-- `Pathway::to_relative` (`pathway.rs`). -/
def Pathway.toRelative (p : Pathway) : List Char :=
  if p.segments.isEmpty then p.ns.asStr
  else p.ns.asStr ++ '/' :: joinSlash p.segments

/-- The `Display` rendering of a pathway (`pathway.rs`, `impl fmt::Display`),
i.e. Rust `to_string`. -/
def Pathway.render (p : Pathway) : List Char := protocol ++ p.toRelative

/-- `Pathway::is_prefix_of` (`pathway.rs`). -/
def Pathway.prefixOf (a b : Pathway) : Bool :=
  if a.ns ≠ b.ns then false
  else if b.segments.length < a.segments.length then false
  else (a.segments.zip b.segments).all fun q => q.1 = q.2

/-- `Pathway::parent` (`pathway.rs`). -/
def Pathway.parent (p : Pathway) : Option Pathway :=
  if p.segments.isEmpty then none
  else some ⟨p.ns, p.segments.dropLast⟩

/-- `Pathway::depth` (`pathway.rs`). -/
def Pathway.depth (p : Pathway) : Nat := p.segments.length

/-- Kinds of node content (`core.rs`, enum `NodeKind`). -/
inductive NodeKind where
  | directory
  | document
  | code
  | markdown
  | memory
  | capability
  | message
  | data
deriving DecidableEq, Repr

/-- Multi-level digest (`digest.rs`, struct `Digest`). -/
structure Digest where
  brief : List Char
  summary : List Char
  generated : Bool
deriving DecidableEq, Repr

/-- `Digest::default()` (derived `Default`): empty, ungenerated. -/
def Digest.default : Digest := ⟨[], [], false⟩

/-- `Digest::with_content` (`digest.rs`). -/
def Digest.withContent (brief summary : List Char) : Digest := ⟨brief, summary, true⟩

/-- Source provenance (`core.rs`, struct `SourceInfo`). -/
structure SourceInfo where
  origin : List Char
  contentType : Option (List Char)
  size : Nat
  hash : List Char

/-- Node metadata (`core.rs`, struct `Metadata`); the free-form
`serde_json::Value` payloads are abstracted as strings. -/
structure Metadata where
  custom : List (List Char × List Char)
  source : Option SourceInfo
  accessCount : Nat
  lastAccessed : Option Nat
  tags : List (List Char)

/-- `Metadata::default()`. -/
def Metadata.default : Metadata := ⟨[], none, 0, none, []⟩

/-- Relation kinds (`core.rs`, enum `RelationKind`). -/
inductive RelationKind where
  | references
  | derivedFrom
  | relatedTo
  | dependsOn
  | custom
deriving DecidableEq, Repr

/-- A typed relation to another node (`core.rs`, struct `Relation`). -/
structure Relation where
  target : Pathway
  kind : RelationKind
  reason : List Char
  createdAt : Nat

/-- A node in the context tree (`core.rs`, struct `Node`). -/
structure Node where
  id : Nat
  pathway : Pathway
  kind : NodeKind
  isDirectory : Bool
  digest : Digest
  content : List Char
  embedding : List ℝ
  metadata : Metadata
  createdAt : Nat
  updatedAt : Nat
  relations : List Relation

/-- `Node::new` (`core.rs`); the fresh uuid and the current time are passed
in explicitly. -/
def Node.new (pathway : Pathway) (kind : NodeKind) (content : List Char)
    (id now : Nat) : Node :=
  ⟨id, pathway, kind, false, Digest.default, content, [], Metadata.default, now, now, []⟩

/-- `Node::directory` (`core.rs`). -/
def Node.directory (pathway : Pathway) (id now : Nat) : Node :=
  ⟨id, pathway, .directory, true, Digest.default, [], [], Metadata.default, now, now, []⟩

/-- `Node::update_content` (`core.rs`): replace content, bump the update
timestamp, reset the digest. -/
def Node.updateContent (n : Node) (content : List Char) (now : Nat) : Node :=
  { n with content := content, updatedAt := now, digest := Digest.default }

/-- `Node::is_embedded` (`core.rs`). -/
def Node.isEmbedded (n : Node) : Bool := !n.embedding.isEmpty

/-- The dot product inside `cosine_similarity` (`storage/vector_index.rs`
lines 86, identically `retrieval.rs` line 182). -/
def dotp (a b : List ℝ) : ℝ := ((a.zip b).map fun q => q.1 * q.2).sum

/-- The squared-norm sum inside `cosine_similarity` (the summand of the
`sqrt` on lines 87-88 of `storage/vector_index.rs`). -/
def sumsq (a : List ℝ) : ℝ := (a.map fun x => x * x).sum

/-- `cosine_similarity` (`storage/vector_index.rs` lines 81-95; the copy in
`retrieval.rs` lines 177-191 is textually identical). -/
noncomputable def cosineSimilarity (a b : List ℝ) : ℝ :=
  if a.length ≠ b.length ∨ a.isEmpty then 0
  else
    let normA := Real.sqrt (sumsq a)
    let normB := Real.sqrt (sumsq b)
    if normA = 0 ∨ normB = 0 then 0
    else dotp a b / (normA * normB)

/-- `DashMap::insert`: replace the value at the key in place, or add the
binding when the key is absent. -/
def assocInsert {α : Type} (k : List Char) (v : α) :
    List (List Char × α) → List (List Char × α)
  | [] => [(k, v)]
  | e :: rest => if e.1 = k then (k, v) :: rest else e :: assocInsert k v rest

/-- `DashMap::remove`. -/
def assocRemove {α : Type} (k : List Char) (l : List (List Char × α)) :
    List (List Char × α) :=
  l.filter fun e => e.1 ≠ k

/-- `DashMap::get`. -/
def assocGet {α : Type} (k : List Char) (l : List (List Char × α)) : Option α :=
  (l.find? fun e => e.1 = k).map Prod.snd

/-- The similarity index (`storage/vector_index.rs`, struct `VectorIndex`):
a map from rendered pathway to embedding vector. -/
structure VectorIndex where
  vectors : List (List Char × List ℝ)

/-- `VectorIndex::add`. -/
def VectorIndex.add (idx : VectorIndex) (p : Pathway) (v : List ℝ) : VectorIndex :=
  ⟨assocInsert p.render v idx.vectors⟩

/-- `VectorIndex::remove`. -/
def VectorIndex.remove (idx : VectorIndex) (p : Pathway) : VectorIndex :=
  ⟨assocRemove p.render idx.vectors⟩

/-- The derived `Ord` key of a `Pathway` (field order: namespace, then
segments; `Vec<String>` compares lexicographically). -/
def pathKey (p : Pathway) : ℕ ×ₗ List (List Char) :=
  toLex (p.ns.rank, p.segments)

/-- The key a `(OrderedFloat<f32>, Pathway)` heap entry is ordered by. -/
def heapKey (x : ℝ × Pathway) : ℝ ×ₗ (ℕ ×ₗ List (List Char)) :=
  toLex (x.1, pathKey x.2)

/-- `x` pops from the max-heap no later than `y`: its key is the larger. -/
noncomputable def popLe (x y : ℝ × Pathway) : Bool := decide (heapKey y ≤ heapKey x)

/-- Insertion into a list sorted by the comparator `le`. -/
def insertBy {α : Type} (le : α → α → Bool) (x : α) : List α → List α
  | [] => [x]
  | y :: ys => if le x y then x :: y :: ys else y :: insertBy le x ys

/-- Insertion sort by the comparator `le`; with the total comparator
`popLe` this yields exactly the pop sequence of the source's
`BinaryHeap<(OrderedFloat<f32>, Pathway)>`. -/
def sortBy {α : Type} (le : α → α → Bool) : List α → List α
  | [] => []
  | x :: xs => insertBy le x (sortBy le xs)

/-- The scan loop of `VectorIndex::search` (`storage/vector_index.rs` lines
47-62): parse each key (propagating failure), skip entries outside the
requested namespace, score the rest, and keep scores meeting `threshold`. -/
noncomputable def searchCollect (query : List ℝ) (ns : Option Namespace)
    (threshold : ℝ) : List (List Char × List ℝ) → Except A3SError (List (ℝ × Pathway))
  | [] => .ok []
  | (k, v) :: rest =>
    match Pathway.parse k with
    | .error e => .error e
    | .ok p =>
      match searchCollect query ns threshold rest with
      | .error e => .error e
      | .ok tail =>
        if ns.any fun n => p.ns ≠ n then .ok tail
        else
          let score := cosineSimilarity query v
          if threshold ≤ score then .ok ((score, p) :: tail) else .ok tail

/-- `VectorIndex::search` (`storage/vector_index.rs` lines 38-74): scan,
then pop the heap at most `limit` times. -/
noncomputable def VectorIndex.search (idx : VectorIndex) (query : List ℝ)
    (ns : Option Namespace) (limit : Nat) (threshold : ℝ) :
    Except A3SError (List (Pathway × ℝ)) :=
  (searchCollect query ns threshold idx.vectors).map fun scored =>
    ((sortBy popLe scored).take limit).map fun e => (e.2, e.1)

/-- The in-memory storage backend (`storage/memory.rs`, struct
`MemoryStorage`). -/
structure MemoryStorage where
  nodes : List (List Char × Node)
  vectorIndex : VectorIndex

/-- `MemoryStorage::put` (`storage/memory.rs` lines 35-47). -/
def MemoryStorage.put (s : MemoryStorage) (n : Node) : MemoryStorage :=
  let s1 :=
    if n.embedding.isEmpty then s
    else { s with vectorIndex := s.vectorIndex.add n.pathway n.embedding }
  { s1 with nodes := assocInsert n.pathway.render n s1.nodes }

/-- `MemoryStorage::get` (`storage/memory.rs` lines 49-55). -/
def MemoryStorage.get (s : MemoryStorage) (p : Pathway) : Except A3SError Node :=
  match assocGet p.render s.nodes with
  | some n => .ok n
  | none => .error (.nodeNotFound p.render)

/-- `MemoryStorage::exists` (`storage/memory.rs` lines 57-59). -/
def MemoryStorage.existsNode (s : MemoryStorage) (p : Pathway) : Bool :=
  (assocGet p.render s.nodes).isSome

/-- `MemoryStorage::remove` (`storage/memory.rs` lines 61-87): recursive
removal deletes every node whose pathway the argument is a prefix of, then
removes only the addressed pathway from the vector index. -/
def MemoryStorage.remove (s : MemoryStorage) (p : Pathway) (recursive : Bool) :
    MemoryStorage :=
  let s1 :=
    if recursive then
      let toRemove := (s.nodes.filter fun e => p.prefixOf e.2.pathway).map Prod.fst
      { s with nodes := toRemove.foldl (fun acc k => assocRemove k acc) s.nodes }
    else
      { s with nodes := assocRemove p.render s.nodes }
  { s1 with vectorIndex := s1.vectorIndex.remove p }

/-- `MemoryStorage::get_children` (`storage/memory.rs` lines 177-193):
descendants strictly below `p`, at most `maxDepth` levels down. -/
def MemoryStorage.getChildren (s : MemoryStorage) (p : Pathway) (maxDepth : Nat) :
    List Node :=
  (s.nodes.filter fun e =>
    p.prefixOf e.2.pathway &&
      (let d := e.2.pathway.depth - p.depth
       decide (0 < d) && decide (d ≤ maxDepth))).map fun e => e.2

/-- `MemoryStorage::update_embedding` (`storage/memory.rs` lines 195-202):
when the node exists, overwrite its embedding and refresh the index entry;
when it does not, do nothing and still succeed. -/
def MemoryStorage.updateEmbedding (s : MemoryStorage) (p : Pathway)
    (embedding : List ℝ) : MemoryStorage :=
  match assocGet p.render s.nodes with
  | some n =>
    { nodes := assocInsert p.render { n with embedding := embedding } s.nodes,
      vectorIndex := s.vectorIndex.add p embedding }
  | none => s

/-- `MemoryStorage::update_digest` (`storage/memory.rs` lines 204-210). -/
def MemoryStorage.updateDigest (s : MemoryStorage) (p : Pathway) (d : Digest) :
    MemoryStorage :=
  match assocGet p.render s.nodes with
  | some n => { s with nodes := assocInsert p.render { n with digest := d } s.nodes }
  | none => s

/-- A matched node of a query (`lib.rs`, struct `MatchedNode`). -/
structure MatchedNode where
  pathway : Pathway
  nodeKind : NodeKind
  score : ℝ
  brief : List Char
  summary : Option (List Char)
  content : Option (List Char)
  highlights : List (List Char)

/-- `HashSet::insert` determinized as first-insertion order. -/
def insertNew (p : Pathway) (l : List Pathway) : List Pathway :=
  if p ∈ l then l else l ++ [p]

/-- The first pass of `Retriever::hierarchical_search` (`retrieval.rs`
lines 115-141): candidates below threshold are skipped; a directory hit is
marked for expansion; a leaf hit becomes a match and its parent is marked.
`results` and `dirs` are the loop accumulators. -/
noncomputable def firstPass (store : MemoryStorage) (threshold : ℝ) :
    List (Pathway × ℝ) → List MatchedNode → List Pathway →
    Except A3SError (List MatchedNode × List Pathway)
  | [], results, dirs => .ok (results, dirs)
  | (p, score) :: rest, results, dirs =>
    if score < threshold then firstPass store threshold rest results dirs
    else
      match store.get p with
      | .error e => .error e
      | .ok node =>
        if node.isDirectory then
          firstPass store threshold rest results (insertNew p dirs)
        else
          firstPass store threshold rest
            (results ++ [⟨p, node.kind, score, node.digest.brief,
              some node.digest.summary, none, []⟩])
            (match p.parent with
             | some par => insertNew par dirs
             | none => dirs)

/-- The inner loop of the second pass (`retrieval.rs` lines 147-169): score
each embedded non-directory child and append it when it meets the threshold
and is not already present. -/
noncomputable def processChildren (queryVector : List ℝ) (threshold : ℝ) :
    List Node → List MatchedNode → List MatchedNode
  | [], acc => acc
  | c :: rest, acc =>
    if c.isDirectory || c.embedding.isEmpty then
      processChildren queryVector threshold rest acc
    else
      let score := cosineSimilarity queryVector c.embedding
      if threshold ≤ score then
        if acc.any fun r => r.pathway = c.pathway then
          processChildren queryVector threshold rest acc
        else
          processChildren queryVector threshold rest
            (acc ++ [⟨c.pathway, c.kind, score, c.digest.brief,
              some c.digest.summary, none, []⟩])
      else processChildren queryVector threshold rest acc

/-- The second pass of `Retriever::hierarchical_search` (`retrieval.rs`
lines 144-170): for each explored directory, fetch descendants two levels
down and process them. -/
noncomputable def secondPass (store : MemoryStorage) (queryVector : List ℝ)
    (threshold : ℝ) : List Pathway → List MatchedNode → List MatchedNode
  | [], acc => acc
  | d :: rest, acc =>
    secondPass store queryVector threshold rest
      (processChildren queryVector threshold (store.getChildren d 2) acc)

/-- `Retriever::hierarchical_search` (`retrieval.rs` lines 105-173).  The
`limit` parameter is unused in the source (`_limit`); `maxDepth` is the
configured `max_depth`, which caps how many explored directories the second
pass visits (`.take(self.config.max_depth)`). -/
noncomputable def hierarchicalSearch (store : MemoryStorage) (queryVector : List ℝ)
    (initialCandidates : List (Pathway × ℝ)) (_limit : Nat) (maxDepth : Nat)
    (threshold : ℝ) : Except A3SError (List MatchedNode) :=
  match firstPass store threshold initialCandidates [] [] with
  | .error e => .error e
  | .ok (results, dirs) =>
    .ok (secondPass store queryVector threshold (dirs.take maxDepth) results)

/-- `truncate` (`digest.rs` lines 182-188). -/
def truncate (s : List Char) (maxChars : Nat) : List Char :=
  if s.length ≤ maxChars then s else s.take maxChars

/-- Rust `str::find(pattern)`: index of the first occurrence.  (For the
corner case of an empty pattern on an empty string Rust returns `Some(0)`
while this returns `none`; the call site only ever passes the two-character
terminators below on a non-empty string.) -/
def findSub (pat : List Char) : List Char → Option Nat
  | [] => none
  | c :: rest =>
    if pat.isPrefixOf (c :: rest) then some 0
    else (findSub pat rest).map fun i => i + 1

/-- The sentence terminators of `extract_first_sentence` (`digest.rs`
line 197). -/
def endings : List (List Char) :=
  [". ".toList, ".\n".toList, "! ".toList, "!\n".toList, "? ".toList, "?\n".toList]

/-- One iteration of the terminator loop of `extract_first_sentence`
(`digest.rs` lines 200-204): `min_pos = min_pos.min(pos + 1)` when the
terminator occurs. -/
def minStep (t : List Char) (m : Nat) (e : List Char) : Nat :=
  match findSub e t with
  | some pos => min m (pos + 1)
  | none => m

/-- `extract_first_sentence` (`digest.rs` lines 190-209): trim, find the
earliest terminator, keep through its punctuation character, cap at 200,
trim again. -/
def extractFirstSentence (s : List Char) : List Char :=
  let t := trimChars s
  if t.isEmpty then []
  else trimChars (t.take (min (endings.foldl (minStep t) t.length) 200))

/-- `DigestGenerator::generate_simple` (`digest.rs` lines 109-114): the
deterministic fallback used when no summarization capability is configured
(`generate`, lines 78-82, returns it whenever `llm_client` is `None`). -/
def generateSimple (content : List Char) : Digest :=
  Digest.withContent (extractFirstSentence content) (truncate content 2000)

/-- The earliest position at which any of the six terminators occurs. -/
def firstTermPos : List Char → Option Nat
  | [] => none
  | c :: rest =>
    if endings.any fun e => e.isPrefixOf (c :: rest) then some 0
    else (firstTermPos rest).map fun i => i + 1

/-- The cut position one past the earliest terminator occurrence, or the
whole length when no terminator occurs. -/
def termStop (s : List Char) : Nat :=
  match firstTermPos s with
  | some i => i + 1
  | none => s.length

/-- The brief claimed by the specification sentence, read literally: the
prefix of the content ending at the earliest occurrence, by character
position, of any terminator, capped at 200 characters — with no trimming.
Used as the refinement side that claim C8 compares the code against. -/
def claimBrief (s : List Char) : List Char :=
  s.take (min (termStop s) 200)

/-- The amended form of that brief: the same scan-and-cap, but applied to
the trimmed content and trimmed again afterwards. -/
def claimBriefTrimmed (s : List Char) : List Char :=
  trimChars ((trimChars s).take (min (termStop (trimChars s)) 200))

/-- Lift a predicate over the success value of an `Except`; failures
satisfy it vacuously. -/
def exceptOk {ε α : Type} (P : α → Prop) : Except ε α → Prop
  | .ok a => P a
  | .error _ => True

/-- The empty in-memory store. -/
def emptyStore : MemoryStorage := ⟨[], ⟨[]⟩⟩

/-- `a3s://knowledge/docs` — the pathway removed in the end-to-end
scenario of claim C1. -/
def docsPath : Pathway := ⟨.knowledge, ["docs".toList]⟩

/-- `a3s://knowledge/docs/api` — the pathway stored in that scenario. -/
def apiPath : Pathway := ⟨.knowledge, ["docs".toList, "api".toList]⟩

/-- The embedded node stored at `a3s://knowledge/docs/api`. -/
def apiNode : Node :=
  { Node.new apiPath .document "api docs".toList 1 0 with embedding := [1] }

/-- The store of the C1 scenario after the `put`. -/
def c1store : MemoryStorage := emptyStore.put apiNode

/-- That store after `remove("a3s://knowledge/docs", recursive = true)`. -/
def c1removed : MemoryStorage := c1store.remove docsPath true

/-- `a3s://knowledge/d` — the directory hit of the C2 scenario. -/
def c2dir : Pathway := ⟨.knowledge, ["d".toList]⟩

/-- `a3s://knowledge/d/x/y/z` — a descendant three levels below it. -/
def c2deep : Pathway :=
  ⟨.knowledge, ["d".toList, "x".toList, "y".toList, "z".toList]⟩

/-- The directory node at `a3s://knowledge/d`. -/
def c2dirNode : Node := Node.directory c2dir 2 0

/-- The embedded document node at `a3s://knowledge/d/x/y/z`. -/
def c2deepNode : Node :=
  { Node.new c2deep .document "deep".toList 3 0 with embedding := [1] }

/-- The store of the C2 scenario: the directory and the deep descendant. -/
def c2store : MemoryStorage := (emptyStore.put c2dirNode).put c2deepNode

/-- `a3s://knowledge/w` — the directory of the C2 witness scenario. -/
def c2wDir : Pathway := ⟨.knowledge, ["w".toList]⟩

/-- `a3s://knowledge/w/leaf` — its embedded child. -/
def c2wLeaf : Pathway := ⟨.knowledge, ["w".toList, "leaf".toList]⟩

/-- The directory node of the C2 witness scenario. -/
def c2wDirNode : Node := Node.directory c2wDir 4 0

/-- The embedded child node of the C2 witness scenario. -/
def c2wLeafNode : Node :=
  { Node.new c2wLeaf .document "leaf".toList 5 0 with embedding := [1] }

/-- The store of the C2 witness scenario. -/
def c2wStore : MemoryStorage := (emptyStore.put c2wDirNode).put c2wLeafNode

/-- `a3s://memory/m` — the leaf of the C5 witness scenario. -/
def c5leaf : Pathway := ⟨.memory, ["m".toList]⟩

/-- The (unembedded) leaf node of the C5 witness scenario. -/
def c5leafNode : Node := Node.new c5leaf .memory "note".toList 6 0

/-- The store of the C5 witness scenario. -/
def c5store : MemoryStorage := emptyStore.put c5leafNode

end A3S

deriving instance DecidableEq for Except

namespace A3S

example : Pathway.parse "a3s://knowledge/docs/api".toList =
    .ok ⟨.knowledge, ["docs".toList, "api".toList]⟩ := by decide

example : Pathway.parse "knowledge/docs/api".toList =
    .ok ⟨.knowledge, ["docs".toList, "api".toList]⟩ := by decide

example : Pathway.parse "a3s://knowledge".toList = .ok ⟨.knowledge, []⟩ := by decide

example : (Pathway.parse "".toList) =
    .error (.invalidPathway "Empty pathway".toList) := by decide

example : (Pathway.parse "a3s://".toList) =
    .error (.invalidPathway "Empty pathway".toList) := by decide

example : (Pathway.render ⟨.memory, ["user".toList, "prefs".toList]⟩) =
    "a3s://memory/user/prefs".toList := by decide

example : Pathway.parse "a3s://knowledge/a /".toList =
    .ok ⟨.knowledge, ["a ".toList]⟩ := by decide

example : Pathway.parse (Pathway.render ⟨.knowledge, ["a ".toList]⟩) =
    .ok ⟨.knowledge, ["a".toList]⟩ := by decide

theorem dotp_nil : dotp [] [] = 0 := rfl

theorem dotp_cons (x y : ℝ) (xs ys : List ℝ) :
    dotp (x :: xs) (y :: ys) = x * y + dotp xs ys := by
  simp [dotp]

theorem sumsq_nil : sumsq [] = 0 := rfl

theorem sumsq_cons (x : ℝ) (xs : List ℝ) : sumsq (x :: xs) = x * x + sumsq xs := by
  simp [sumsq]

theorem dotp_self (a : List ℝ) : dotp a a = sumsq a := by
  induction a with
  | nil => rfl
  | cons x xs ih => rw [dotp_cons, sumsq_cons, ih]

theorem sumsq_map_neg (a : List ℝ) : sumsq (a.map fun x => -x) = sumsq a := by
  induction a with
  | nil => rfl
  | cons x xs ih => simp only [List.map_cons, sumsq_cons, ih]; ring_nf

theorem dotp_map_neg (a : List ℝ) : dotp a (a.map fun x => -x) = -sumsq a := by
  induction a with
  | nil => simp [dotp_nil, sumsq_nil]
  | cons x xs ih => simp only [List.map_cons, dotp_cons, sumsq_cons, ih]; ring

theorem sumsq_nonneg (a : List ℝ) : 0 ≤ sumsq a := by
  induction a with
  | nil => simp [sumsq_nil]
  | cons x xs ih => rw [sumsq_cons]; nlinarith [mul_self_nonneg x]

/-- C4: the cosine-similarity primitive: identical unit vectors score `1`
(hence within `1e-3` of `1.0`); vectors with zero dot product score `0`;
opposite unit vectors score `-1`; mismatched lengths or an empty input
score `0`; any zero-norm input scores `0`.  In this exact-real model the
function is total, so no NaN or infinity can arise; the source's zero-norm
guard is what the last conjunct exercises. -/
theorem cosine_similarity_spec (a b : List ℝ) :
    (sumsq a = 1 → cosineSimilarity a a = 1) ∧
    (dotp a b = 0 → cosineSimilarity a b = 0) ∧
    (b = a.map (fun x => -x) → sumsq a = 1 → cosineSimilarity a b = -1) ∧
    (a.length ≠ b.length ∨ a = [] → cosineSimilarity a b = 0) ∧
    (sumsq a = 0 ∨ sumsq b = 0 → cosineSimilarity a b = 0) := by
  refine ⟨?_, ?_, ?_, ?_, ?_⟩
  · intro h1
    have ha : a ≠ [] := by rintro rfl; simp [sumsq_nil] at h1
    have hne : a.isEmpty = false := by simpa [List.isEmpty_iff] using ha
    rw [cosineSimilarity, if_neg (by simp [hne]), dotp_self, h1]
    simp [Real.sqrt_one]
  · intro h
    rw [cosineSimilarity]
    split
    · rfl
    · dsimp only
      split
      · rfl
      · rw [h, zero_div]
  · rintro rfl h1
    have ha : a ≠ [] := by rintro rfl; simp [sumsq_nil] at h1
    have hne : a.isEmpty = false := by simpa [List.isEmpty_iff] using ha
    rw [cosineSimilarity, if_neg (by simp [hne]), dotp_map_neg, h1, sumsq_map_neg, h1]
    simp [Real.sqrt_one]
  · intro h
    rcases h with h | h
    · rw [cosineSimilarity, if_pos (Or.inl h)]
    · rw [cosineSimilarity, if_pos (Or.inr (by simp [h]))]
  · intro h
    rw [cosineSimilarity]
    split
    · rfl
    · dsimp only
      rw [if_pos]
      rcases h with h | h
      · exact Or.inl (by rw [h, Real.sqrt_zero])
      · exact Or.inr (by rw [h, Real.sqrt_zero])

theorem mem_insertBy {α : Type} (le : α → α → Bool) (x a : α) (l : List α) :
    a ∈ insertBy le x l ↔ a = x ∨ a ∈ l := by
  induction l with
  | nil => simp [insertBy]
  | cons y ys ih =>
    by_cases h : le x y = true
    · simp [insertBy, h]
    · simp only [insertBy, h, if_false, Bool.false_eq_true, List.mem_cons, ih]
      tauto

theorem mem_sortBy {α : Type} (le : α → α → Bool) (a : α) (l : List α) :
    a ∈ sortBy le l ↔ a ∈ l := by
  induction l with
  | nil => simp [sortBy]
  | cons x xs ih => simp [sortBy, mem_insertBy, ih]

theorem pairwise_insertBy {α : Type} {le : α → α → Bool}
    (htot : ∀ a b, le a b = true ∨ le b a = true)
    (htrans : ∀ a b c, le a b = true → le b c = true → le a c = true)
    {x : α} {l : List α} (hl : l.Pairwise fun a b => le a b = true) :
    (insertBy le x l).Pairwise fun a b => le a b = true := by
  induction l with
  | nil => simp [insertBy]
  | cons y ys ih =>
    rcases List.pairwise_cons.mp hl with ⟨hy, hys⟩
    by_cases h : le x y = true
    · rw [insertBy, if_pos h]
      refine List.pairwise_cons.mpr ⟨?_, hl⟩
      intro b hb
      rcases List.mem_cons.mp hb with rfl | hb
      · exact h
      · exact htrans x y b h (hy b hb)
    · rw [insertBy, if_neg h]
      have hyx : le y x = true := (htot x y).resolve_left h
      refine List.pairwise_cons.mpr ⟨?_, ih hys⟩
      intro b hb
      rcases (mem_insertBy le x b ys).mp hb with rfl | hb
      · exact hyx
      · exact hy b hb

theorem pairwise_sortBy {α : Type} {le : α → α → Bool}
    (htot : ∀ a b, le a b = true ∨ le b a = true)
    (htrans : ∀ a b c, le a b = true → le b c = true → le a c = true)
    (l : List α) : (sortBy le l).Pairwise fun a b => le a b = true := by
  induction l with
  | nil => simp [sortBy]
  | cons x xs ih => exact pairwise_insertBy htot htrans ih

theorem popLe_total (x y : ℝ × Pathway) : popLe x y = true ∨ popLe y x = true := by
  unfold popLe
  rcases le_total (heapKey x) (heapKey y) with h | h
  · right; simpa using h
  · left; simpa using h

theorem popLe_trans (x y z : ℝ × Pathway) :
    popLe x y = true → popLe y z = true → popLe x z = true := by
  unfold popLe
  intro h1 h2
  simp only [decide_eq_true_eq] at h1 h2 ⊢
  exact le_trans h2 h1

theorem popLe_score {x y : ℝ × Pathway} (h : popLe x y = true) : y.1 ≤ x.1 := by
  unfold popLe at h
  simp only [decide_eq_true_eq] at h
  rcases (Prod.Lex.le_iff _ _).mp h with h1 | ⟨h1, _⟩
  · exact le_of_lt h1
  · exact le_of_eq h1

theorem searchCollect_sound {query : List ℝ} {ns : Option Namespace} {threshold : ℝ} :
    ∀ {entries : List (List Char × List ℝ)} {scored : List (ℝ × Pathway)},
      searchCollect query ns threshold entries = .ok scored →
      ∀ x ∈ scored, threshold ≤ x.1 ∧ ∀ n, ns = some n → x.2.ns = n := by
  intro entries
  induction entries with
  | nil =>
    intro scored h x hx
    rw [searchCollect] at h
    cases h
    simp at hx
  | cons e rest ih =>
    intro scored h x hx
    obtain ⟨k, v⟩ := e
    rw [searchCollect] at h
    cases hp : Pathway.parse k with
    | error err => rw [hp] at h; cases h
    | ok p =>
      rw [hp] at h
      cases hc : searchCollect query ns threshold rest with
      | error err => rw [hc] at h; cases h
      | ok tail =>
        rw [hc] at h
        dsimp only at h
        by_cases hns : (ns.any fun n => p.ns ≠ n) = true
        · rw [if_pos hns] at h
          cases h
          exact ih hc x hx
        · rw [if_neg hns] at h
          by_cases hth : threshold ≤ cosineSimilarity query v
          · rw [if_pos hth] at h
            cases h
            rcases List.mem_cons.mp hx with rfl | hx
            · refine ⟨hth, ?_⟩
              intro n hn
              subst hn
              simpa [decide_eq_true_eq] using hns
            · exact ih hc x hx
          · rw [if_neg hth] at h
            cases h
            exact ih hc x hx

/-- C3: similarity-index `search` returns at most `limit` results, none of
them scoring strictly below `threshold`, ordered by score descending, and
— under a namespace filter — only pathways of that namespace.  (When an
index key fails to parse the call errors out and returns no results at
all, which the `exceptOk` wrapper reflects.) -/
theorem vector_index_search_spec (idx : VectorIndex) (query : List ℝ)
    (ns : Option Namespace) (limit : Nat) (threshold : ℝ) :
    exceptOk (fun r =>
        r.length ≤ limit ∧
        (∀ x ∈ r, threshold ≤ x.2) ∧
        r.Pairwise (fun a b => b.2 ≤ a.2) ∧
        (∀ n, ns = some n → ∀ x ∈ r, x.1.ns = n))
      (idx.search query ns limit threshold) := by
  unfold VectorIndex.search
  cases hc : searchCollect query ns threshold idx.vectors with
  | error err => exact trivial
  | ok scored =>
    dsimp only [Except.map, exceptOk]
    have hmem : ∀ x ∈ (sortBy popLe scored).take limit,
        threshold ≤ x.1 ∧ ∀ n, ns = some n → x.2.ns = n := by
      intro x hx
      have : x ∈ sortBy popLe scored := List.mem_of_mem_take hx
      exact searchCollect_sound hc x ((mem_sortBy popLe x scored).mp this)
    refine ⟨?_, ?_, ?_, ?_⟩
    · rw [List.length_map]
      exact List.length_take_le limit (sortBy popLe scored)
    · intro x hx
      rcases List.mem_map.mp hx with ⟨y, hy, rfl⟩
      exact (hmem y hy).1
    · have hs := pairwise_sortBy popLe_total popLe_trans scored
      have ht : ((sortBy popLe scored).take limit).Pairwise
          fun a b => popLe a b = true :=
        hs.sublist (List.take_sublist limit _)
      rw [List.pairwise_map]
      exact ht.imp fun h => popLe_score h
    · intro n hn x hx
      rcases List.mem_map.mp hx with ⟨y, hy, rfl⟩
      exact (hmem y hy).2 n hn

/-- Witness for C3 at a concrete index, query, limit and threshold. -/
theorem vector_index_search_spec_witness :
    exceptOk (fun r : List (Pathway × ℝ) =>
        r.length ≤ 10 ∧
        (∀ x ∈ r, (0 : ℝ) ≤ x.2) ∧
        r.Pairwise (fun a b => b.2 ≤ a.2) ∧
        (∀ n, some Namespace.knowledge = some n → ∀ x ∈ r, x.1.ns = n))
      (VectorIndex.search ⟨[]⟩ [1] (some .knowledge) 10 0) :=
  vector_index_search_spec ⟨[]⟩ [1] (some .knowledge) 10 0

/-- Witness for C4 at concrete inputs. -/
theorem cosine_similarity_spec_witness :
    cosineSimilarity [1] [1] = 1 ∧ cosineSimilarity [1, 0] [0, 1] = 0 ∧
    cosineSimilarity [1] [-1] = -1 ∧ cosineSimilarity [1] [1, 0] = 0 ∧
    cosineSimilarity [0] [0] = 0 :=
  ⟨(cosine_similarity_spec [1] [1]).1 (by norm_num [sumsq_cons, sumsq_nil]),
   (cosine_similarity_spec [1, 0] [0, 1]).2.1
     (by norm_num [dotp_cons, dotp_nil]),
   (cosine_similarity_spec [1] [-1]).2.2.1 (by norm_num)
     (by norm_num [sumsq_cons, sumsq_nil]),
   (cosine_similarity_spec [1] [1, 0]).2.2.2.1 (by norm_num),
   (cosine_similarity_spec [0] [0]).2.2.2.2
     (Or.inl (by norm_num [sumsq_cons, sumsq_nil]))⟩

/-- C7: `parse` rejects — with an `InvalidPathway` error — the empty
string, the protocol-only string, every input whose namespace token is not
one of the four known ones, and every input one of whose segments contains
a null byte. -/
theorem parse_rejections :
    Pathway.parse "".toList = .error (.invalidPathway "Empty pathway".toList) ∧
    Pathway.parse "a3s://".toList = .error (.invalidPathway "Empty pathway".toList) ∧
    (∀ s p0 rest, rawParts s = p0 :: rest → Namespace.fromStr p0 = none →
      ∃ msg, Pathway.parse s = .error (.invalidPathway msg)) ∧
    (∀ s, (∃ seg ∈ (rawParts s).tail, ('\x00' : Char) ∈ seg) →
      ∃ msg, Pathway.parse s = .error (.invalidPathway msg)) := by
  refine ⟨by decide, by decide, ?_, ?_⟩
  · intro s p0 rest hraw hns
    rw [Pathway.parse]
    by_cases hb : (pathBody s).isEmpty
    · exact ⟨_, by rw [if_pos hb]⟩
    · rw [if_neg hb, hraw]
      dsimp only
      rw [hns]
      exact ⟨_, rfl⟩
  · intro s hseg
    obtain ⟨seg, hmem, hnull⟩ := hseg
    rw [Pathway.parse]
    by_cases hb : (pathBody s).isEmpty
    · exact ⟨_, by rw [if_pos hb]⟩
    · cases hraw : rawParts s with
      | nil => rw [hraw] at hmem; simp at hmem
      | cons p0 rest =>
        rw [hraw] at hmem
        dsimp only [List.tail_cons] at hmem
        rw [if_neg hb]
        dsimp only
        cases hns : Namespace.fromStr p0 with
        | none => exact ⟨_, rfl⟩
        | some n =>
          dsimp only
          cases hf : rest.find? (fun sg => sg.isEmpty || sg.contains '\x00') with
          | none =>
            exfalso
            have := List.find?_eq_none.mp hf seg hmem
            simp only [Bool.or_eq_true, List.contains, not_or] at this
            exact this.2 (List.elem_eq_true_of_mem hnull)
          | some bad => exact ⟨_, rfl⟩

/-- Witness for C7 at two concrete rejected inputs. -/
theorem parse_rejections_witness :
    (∃ msg, Pathway.parse "a3s://foo/x".toList = .error (.invalidPathway msg)) ∧
    (∃ msg, Pathway.parse "a3s://knowledge/a\x00b".toList =
      .error (.invalidPathway msg)) :=
  ⟨parse_rejections.2.2.1 "a3s://foo/x".toList "foo".toList ["x".toList]
      (by decide) (by decide),
   parse_rejections.2.2.2 "a3s://knowledge/a\x00b".toList
      ⟨"a\x00b".toList, by decide, by decide⟩⟩

theorem splitChar_ne_nil (sep : Char) (l : List Char) : splitChar sep l ≠ [] := by
  cases l with
  | nil => simp [splitChar]
  | cons c rest =>
    rw [splitChar]
    by_cases h : c = sep
    · simp [h]
    · simp only [h, if_false]
      cases hr : splitChar sep rest with
      | nil => simp
      | cons a b => simp

theorem not_sep_mem_splitChar (sep : Char) :
    ∀ (l : List Char), ∀ x ∈ splitChar sep l, sep ∉ x := by
  intro l
  induction l with
  | nil =>
    intro x hx
    rw [splitChar, List.mem_singleton] at hx
    subst hx
    simp
  | cons c rest ih =>
    intro x hx
    rw [splitChar] at hx
    by_cases h : c = sep
    · rw [if_pos h] at hx
      rcases List.mem_cons.mp hx with rfl | hx
      · simp
      · exact ih x hx
    · rw [if_neg h] at hx
      cases hr : splitChar sep rest with
      | nil => exact absurd hr (splitChar_ne_nil sep rest)
      | cons a b =>
        rw [hr] at hx
        rcases List.mem_cons.mp hx with rfl | hx
        · intro hmem
          rcases List.mem_cons.mp hmem with rfl | hmem
          · exact h rfl
          · exact ih a (by rw [hr]; exact List.mem_cons_self a b) hmem
        · exact ih x (by rw [hr]; exact List.mem_cons_of_mem a hx)

theorem splitChar_sepfree (sep : Char) (l : List Char) (h : sep ∉ l) :
    splitChar sep l = [l] := by
  induction l with
  | nil => rfl
  | cons c rest ih =>
    rw [splitChar, if_neg (by rintro rfl; exact h (List.mem_cons_self _ _)),
      ih fun hm => h (List.mem_cons_of_mem _ hm)]

theorem splitChar_append_sep (sep : Char) (a b : List Char) (h : sep ∉ a) :
    splitChar sep (a ++ sep :: b) = a :: splitChar sep b := by
  induction a with
  | nil => simp [splitChar]
  | cons c rest ih =>
    rw [List.cons_append, splitChar,
      if_neg (by rintro rfl; exact h (List.mem_cons_self _ _)),
      ih fun hm => h (List.mem_cons_of_mem _ hm)]

theorem splitChar_joinSlash :
    ∀ segs : List (List Char), segs ≠ [] →
      (∀ s ∈ segs, ('/' : Char) ∉ s) →
      splitChar '/' (joinSlash segs) = segs := by
  intro segs
  induction segs with
  | nil => intro h; exact absurd rfl h
  | cons s rest ih =>
    intro _ hfree
    cases rest with
    | nil => exact splitChar_sepfree '/' s (hfree s (List.mem_cons_self _ _))
    | cons s2 r2 =>
      rw [joinSlash,
        splitChar_append_sep '/' s _ (hfree s (List.mem_cons_self _ _)),
        ih (by simp) fun t ht => hfree t (List.mem_cons_of_mem _ ht)]

theorem joinSlash_ne_nil :
    ∀ segs : List (List Char), segs ≠ [] → (∀ s ∈ segs, s ≠ []) →
      joinSlash segs ≠ [] := by
  intro segs
  cases segs with
  | nil => intro h; exact absurd rfl h
  | cons s rest =>
    intro _ hne
    cases rest with
    | nil => exact hne s (List.mem_cons_self _ _)
    | cons s2 r2 =>
      rw [joinSlash]
      cases hs : s with
      | nil => simp
      | cons c cs => simp

theorem getLast?_joinSlash :
    ∀ (segs : List (List Char)) (lastSeg : List Char),
      (∀ s ∈ segs, s ≠ []) → segs.getLast? = some lastSeg →
      (joinSlash segs).getLast? = lastSeg.getLast? := by
  intro segs
  induction segs with
  | nil => intro lastSeg _ h; cases h
  | cons s rest ih =>
    intro lastSeg hne hlast
    cases rest with
    | nil =>
      rw [List.getLast?_singleton] at hlast
      cases hlast
      rfl
    | cons s2 r2 =>
      rw [List.getLast?_cons_cons] at hlast
      rw [joinSlash, List.getLast?_append_of_ne_nil _
        (by simp), show ('/' :: joinSlash (s2 :: r2)) = ['/'] ++ joinSlash (s2 :: r2) from rfl,
        List.getLast?_append_of_ne_nil _
          (joinSlash_ne_nil _ (by simp) fun t ht => hne t (List.mem_cons_of_mem _ ht))]
      exact ih lastSeg (fun t ht => hne t (List.mem_cons_of_mem _ ht)) hlast

theorem dropWhile_white_eq_self {l : List Char}
    (h : (l.head?.all fun c => !isWhite c) = true) :
    l.dropWhile isWhite = l := by
  cases l with
  | nil => rfl
  | cons c rest =>
    simp only [List.head?_cons, Option.all_some, Bool.not_eq_true'] at h
    rw [List.dropWhile_cons, h]
    simp

theorem trimChars_eq_self {l : List Char}
    (h1 : (l.head?.all fun c => !isWhite c) = true)
    (h2 : (l.getLast?.all fun c => !isWhite c) = true) :
    trimChars l = l := by
  rw [trimChars, dropWhile_white_eq_self h1,
    dropWhile_white_eq_self (by rwa [List.head?_reverse]),
    List.reverse_reverse]

theorem asStr_ne_nil (ns : Namespace) : ns.asStr ≠ [] := by
  cases ns <;> decide

theorem asStr_no_slash (ns : Namespace) : ('/' : Char) ∉ ns.asStr := by
  cases ns <;> decide

theorem asStr_getLast_not_white (ns : Namespace) :
    (ns.asStr.getLast?.all fun c => !isWhite c) = true := by
  cases ns <;> decide

theorem fromStr_asStr (ns : Namespace) : Namespace.fromStr ns.asStr = some ns := by
  cases ns <;> decide

theorem toRelative_ne_nil (p : Pathway) : p.toRelative ≠ [] := by
  rw [Pathway.toRelative]
  by_cases h : p.segments.isEmpty
  · rw [if_pos h]; exact asStr_ne_nil p.ns
  · rw [if_neg h]
    intro hc
    exact asStr_ne_nil p.ns (List.append_eq_nil.mp hc).1

theorem isPrefixOf_append_self (a b : List Char) : a.isPrefixOf (a ++ b) = true := by
  induction a with
  | nil => simp [List.isPrefixOf]
  | cons c rest ih => simp [List.isPrefixOf, ih]

/-- Invariants of a parsed pathway: every segment is non-empty and contains
neither a slash nor a null byte. -/
theorem parse_ok_inv {s : List Char} {p : Pathway} (h : Pathway.parse s = .ok p) :
    ∀ seg ∈ p.segments, seg ≠ [] ∧ ('/' : Char) ∉ seg ∧ ('\x00' : Char) ∉ seg := by
  rw [Pathway.parse] at h
  by_cases hb : (pathBody s).isEmpty
  · rw [if_pos hb] at h; cases h
  · rw [if_neg hb] at h
    cases hraw : rawParts s with
    | nil => rw [hraw] at h; cases h
    | cons p0 rest =>
      rw [hraw] at h
      dsimp only at h
      cases hns : Namespace.fromStr p0 with
      | none => rw [hns] at h; cases h
      | some n =>
        rw [hns] at h
        dsimp only at h
        cases hf : rest.find? (fun sg => sg.isEmpty || sg.contains '\x00') with
        | some bad => rw [hf] at h; cases h
        | none =>
          rw [hf] at h
          cases h
          intro seg hseg
          have hsr : seg ∈ rawParts s := by
            rw [hraw]; exact List.mem_cons_of_mem _ hseg
          rw [rawParts] at hsr
          have hfind := List.find?_eq_none.mp hf seg hseg
          simp only [Bool.or_eq_true, not_or] at hfind

          refine ⟨?_, ?_, ?_⟩
          · have := List.of_mem_filter hsr
            simpa [List.isEmpty_iff] using this
          · exact not_sep_mem_splitChar '/' _ seg (List.mem_of_mem_filter hsr)
          · intro hmem
            exact hfind.2 (List.elem_eq_true_of_mem hmem)

/-- Parsing the canonical rendering of a well-formed pathway succeeds and
returns it unchanged, provided its last segment does not end in
whitespace. -/
theorem parse_render {p : Pathway}
    (hsegs : ∀ seg ∈ p.segments, seg ≠ [] ∧ ('/' : Char) ∉ seg ∧ ('\x00' : Char) ∉ seg)
    (hlast : ∀ seg, p.segments.getLast? = some seg →
      (seg.getLast?.all fun c => !isWhite c) = true) :
    Pathway.parse p.render = .ok p := by
  obtain ⟨ns, segs⟩ := p
  have hrel : Pathway.toRelative ⟨ns, segs⟩ ≠ [] := toRelative_ne_nil ⟨ns, segs⟩
  have hrender_last :
      ((Pathway.render ⟨ns, segs⟩).getLast?.all fun c => !isWhite c) = true := by
    rw [Pathway.render, List.getLast?_append_of_ne_nil _ hrel]
    cases segs with
    | nil =>
      rw [show Pathway.toRelative ⟨ns, []⟩ = ns.asStr from rfl]
      exact asStr_getLast_not_white ns
    | cons s1 srest =>
      rw [show Pathway.toRelative ⟨ns, s1 :: srest⟩ =
          ns.asStr ++ '/' :: joinSlash (s1 :: srest) from rfl,
        List.getLast?_append_of_ne_nil _ (by simp)]
      cases hls : (s1 :: srest).getLast? with
      | none => simp at hls
      | some lastSeg =>
        have hne : ∀ t ∈ s1 :: srest, t ≠ [] := fun t ht => (hsegs t ht).1
        rw [show ('/' :: joinSlash (s1 :: srest)) = ['/'] ++ joinSlash (s1 :: srest)
            from rfl,
          List.getLast?_append_of_ne_nil _ (joinSlash_ne_nil _ (by simp) hne),
          getLast?_joinSlash (s1 :: srest) lastSeg hne hls]
        exact hlast lastSeg hls
  have htrim : trimChars (Pathway.render ⟨ns, segs⟩) = Pathway.render ⟨ns, segs⟩ :=
    trimChars_eq_self
      (by rw [show (Pathway.render ⟨ns, segs⟩).head? = some 'a' from rfl]; rfl)
      hrender_last
  have hbody : pathBody (Pathway.render ⟨ns, segs⟩) = Pathway.toRelative ⟨ns, segs⟩ := by
    rw [pathBody]
    rw [htrim, Pathway.render, if_pos (isPrefixOf_append_self protocol _),
      List.drop_left]
  have hparts : rawParts (Pathway.render ⟨ns, segs⟩) = ns.asStr :: segs := by
    rw [rawParts, hbody]
    cases segs with
    | nil =>
      rw [show Pathway.toRelative ⟨ns, []⟩ = ns.asStr from rfl,
        splitChar_sepfree '/' _ (asStr_no_slash ns), List.filter_cons]
      simp [List.isEmpty_iff, asStr_ne_nil ns]
    | cons s1 srest =>
      rw [show Pathway.toRelative ⟨ns, s1 :: srest⟩ =
          ns.asStr ++ '/' :: joinSlash (s1 :: srest) from rfl,
        splitChar_append_sep '/' _ _ (asStr_no_slash ns),
        splitChar_joinSlash (s1 :: srest) (by simp) fun t ht => (hsegs t ht).2.1]
      rw [List.filter_eq_self.mpr]
      intro a ha
      rcases List.mem_cons.mp ha with rfl | ha
      · simp [List.isEmpty_iff, asStr_ne_nil ns]
      · simp [List.isEmpty_iff, (hsegs a ha).1]
  have hne2 : ¬(pathBody (Pathway.render ⟨ns, segs⟩)).isEmpty = true := by
    rw [hbody]
    simpa [List.isEmpty_iff] using hrel
  have hfind : segs.find? (fun sg => sg.isEmpty || sg.contains '\x00') = none := by
    rw [List.find?_eq_none]
    intro t ht
    simp only [Bool.or_eq_true, not_or]
    refine ⟨by simp [List.isEmpty_iff, (hsegs t ht).1], ?_⟩
    intro hc
    exact (hsegs t ht).2.2 (List.mem_of_elem_eq_true hc)
  rw [Pathway.parse, if_neg hne2, hparts]
  dsimp only
  rw [fromStr_asStr ns]
  dsimp only
  rw [hfind]

/-- C6 counterexample: `"a3s://knowledge/a /"` is accepted (the trailing
empty part is filtered away, leaving the segment `"a "`), but rendering
produces `"a3s://knowledge/a "`, whose re-parse trims the trailing space
and yields the different segment `"a"`. -/
theorem parse_render_roundtrip_cex :
    Pathway.parse "a3s://knowledge/a /".toList =
      .ok ⟨.knowledge, ["a ".toList]⟩ ∧
    Pathway.parse (Pathway.render ⟨.knowledge, ["a ".toList]⟩) ≠
      Pathway.parse "a3s://knowledge/a /".toList := by
  constructor
  · decide
  · decide

/-- C6 (amended): for every accepted string `s` whose parsed pathway's last
segment does not end in a whitespace character,
`parse (to_string (parse s)) = parse s`. -/
theorem parse_render_roundtrip (s : List Char) (p : Pathway)
    (h : Pathway.parse s = .ok p)
    (hws : ∀ seg, p.segments.getLast? = some seg →
      (seg.getLast?.all fun c => !isWhite c) = true) :
    Pathway.parse p.render = Pathway.parse s := by
  rw [h]
  exact parse_render (parse_ok_inv h) hws

/-- Witness for the amended C6 at a concrete accepted input. -/
theorem parse_render_roundtrip_witness :
    Pathway.parse (Pathway.render ⟨.knowledge, ["docs".toList, "api".toList]⟩) =
      Pathway.parse "a3s://knowledge/docs/api".toList :=
  parse_render_roundtrip "a3s://knowledge/docs/api".toList
    ⟨.knowledge, ["docs".toList, "api".toList]⟩ (by decide) (by decide)

theorem minStep_le (t : List Char) (m : Nat) (e : List Char) : minStep t m e ≤ m := by
  rw [minStep]
  split
  · exact Nat.min_le_left _ _
  · exact le_rfl

theorem foldl_minStep_le_init (t : List Char) :
    ∀ (es : List (List Char)) (m : Nat), es.foldl (minStep t) m ≤ m := by
  intro es
  induction es with
  | nil => intro m; exact le_rfl
  | cons e rest ih =>
    intro m
    exact le_trans (ih (minStep t m e)) (minStep_le t m e)

theorem foldl_minStep_le_of_mem (t : List Char) :
    ∀ (es : List (List Char)) (m : Nat) (e : List Char) (p : Nat),
      e ∈ es → findSub e t = some p → es.foldl (minStep t) m ≤ p + 1 := by
  intro es
  induction es with
  | nil =>
    intro m e p he
    cases he
  | cons e0 rest ih =>
    intro m e p he hf
    rcases List.mem_cons.mp he with rfl | he
    · rw [List.foldl_cons]
      refine le_trans (foldl_minStep_le_init t rest _) ?_
      rw [minStep, hf]
      exact Nat.min_le_right _ _
    · exact ih _ e p he hf

theorem foldl_minStep_pos (t : List Char) :
    ∀ (es : List (List Char)) (m : Nat), 1 ≤ m → 1 ≤ es.foldl (minStep t) m := by
  intro es
  induction es with
  | nil => intro m h; exact h
  | cons e rest ih =>
    intro m h
    rw [List.foldl_cons]
    apply ih
    rw [minStep]
    split
    · exact le_min h (Nat.succ_le_succ (Nat.zero_le _))
    · exact h

theorem findSub_cons_shift {e : List Char} {c : Char} {t : List Char}
    (h : ¬ e.isPrefixOf (c :: t) = true) :
    findSub e (c :: t) = (findSub e t).map fun i => i + 1 := by
  rw [findSub, if_neg h]

theorem foldl_minStep_shift (c : Char) (t : List Char) :
    ∀ (es : List (List Char)) (m : Nat),
      (∀ e ∈ es, ¬ e.isPrefixOf (c :: t) = true) →
      es.foldl (minStep (c :: t)) (m + 1) = es.foldl (minStep t) m + 1 := by
  intro es
  induction es with
  | nil => intro m _; rfl
  | cons e rest ih =>
    intro m hnp
    rw [List.foldl_cons, List.foldl_cons]
    have hstep : minStep (c :: t) (m + 1) e = minStep t m e + 1 := by
      rw [minStep, minStep,
        findSub_cons_shift (hnp e (List.mem_cons_self _ _))]
      cases hf : findSub e t with
      | none => rfl
      | some p => simp [Nat.succ_min_succ]
    rw [hstep]
    exact ih _ fun x hx => hnp x (List.mem_cons_of_mem _ hx)

theorem foldl_minStep_endings :
    ∀ t : List Char, endings.foldl (minStep t) t.length = termStop t := by
  intro t
  induction t with
  | nil => rfl
  | cons c rest ih =>
    by_cases hany : (endings.any fun e => e.isPrefixOf (c :: rest)) = true
    · have h1 : termStop (c :: rest) = 1 := by
        rw [termStop, firstTermPos, if_pos hany]
      rw [h1]
      obtain ⟨e0, he0, hpre⟩ := List.any_eq_true.mp hany
      have hf : findSub e0 (c :: rest) = some 0 := by rw [findSub, if_pos hpre]
      have hle := foldl_minStep_le_of_mem (c :: rest) endings
        (c :: rest).length e0 0 he0 hf
      have hge := foldl_minStep_pos (c :: rest) endings
        (c :: rest).length (by simp)
      omega
    · have hnp : ∀ e ∈ endings, ¬ e.isPrefixOf (c :: rest) = true := by
        intro e he hpre
        exact hany (List.any_eq_true.mpr ⟨e, he, hpre⟩)
      rw [show (c :: rest).length = rest.length + 1 from rfl,
        foldl_minStep_shift c rest endings rest.length hnp, ih,
        termStop, termStop, firstTermPos, if_neg hany]
      cases hft : firstTermPos rest with
      | none => simp [hft]
      | some i => simp [hft]

theorem extractFirstSentence_eq (s : List Char) :
    extractFirstSentence s = claimBriefTrimmed s := by
  rw [extractFirstSentence, claimBriefTrimmed]
  by_cases h : (trimChars s).isEmpty
  · rw [if_pos h, List.isEmpty_iff.mp h]
    rfl
  · rw [if_neg h, foldl_minStep_endings]

theorem truncate_eq_take (s : List Char) (n : Nat) : truncate s n = s.take n := by
  rw [truncate]
  split
  · exact (List.take_of_length_le (by assumption)).symm
  · rfl

/-- C8 counterexample: on the content `"  Hi. Yo."` the fallback first
trims, so the produced brief is `"Hi."`, while the claimed untrimmed
prefix up to the earliest terminator is `"  Hi."`. -/
theorem digest_fallback_cex :
    (generateSimple "  Hi. Yo.".toList).brief = "Hi.".toList ∧
    claimBrief "  Hi. Yo.".toList = "  Hi.".toList ∧
    (generateSimple "  Hi. Yo.".toList).brief ≠ claimBrief "  Hi. Yo.".toList := by
  refine ⟨by decide, by decide, by decide⟩

/-- C8 (amended): with no summarization capability configured, the
fallback digest's brief is the first sentence of the *trimmed* content —
the prefix through the earliest terminator occurrence, capped at 200
characters and trimmed again — its summary is the content truncated to
2000 characters, and the digest is marked generated. -/
theorem digest_fallback (content : List Char) :
    generateSimple content =
      Digest.withContent (claimBriefTrimmed content) (content.take 2000) := by
  rw [generateSimple, extractFirstSentence_eq, truncate_eq_take]

theorem assocGet_insert_self {α : Type} (k : List Char) (v : α)
    (l : List (List Char × α)) : assocGet k (assocInsert k v l) = some v := by
  induction l with
  | nil =>
    rw [assocInsert, assocGet, List.find?_cons_of_pos _ (by simp)]
    rfl
  | cons e rest ih =>
    rw [assocInsert]
    by_cases h : e.1 = k
    · rw [if_pos h, assocGet, List.find?_cons_of_pos _ (by simp)]
      rfl
    · rw [if_neg h, assocGet, List.find?_cons_of_neg _ (by simp [h])]
      exact ih

theorem assocGet_insert_other {α : Type} (k k2 : List Char) (v : α)
    (l : List (List Char × α)) (h : k2 ≠ k) :
    assocGet k2 (assocInsert k v l) = assocGet k2 l := by
  induction l with
  | nil =>
    rw [assocInsert, assocGet, List.find?_cons_of_neg _ (by simp [Ne.symm h])]
    rfl
  | cons e rest ih =>
    rw [assocInsert]
    by_cases he : e.1 = k
    · rw [if_pos he, assocGet, List.find?_cons_of_neg _ (by simp [Ne.symm h]),
        assocGet, List.find?_cons_of_neg _ (by simp [he, Ne.symm h])]
    · rw [if_neg he]
      by_cases hq : e.1 = k2
      · rw [assocGet, List.find?_cons_of_pos _ (by simp [hq]),
          assocGet, List.find?_cons_of_pos _ (by simp [hq])]
      · rw [assocGet, List.find?_cons_of_neg _ (by simp [hq]),
          assocGet, List.find?_cons_of_neg _ (by simp [hq])]
        exact ih

/-- C10: updating the embedding or the digest at a pathway where no node is
stored succeeds as a no-op: no node is created and neither the node map
nor the Similarity Index changes.  (In the source both functions return
`Ok(())` unconditionally; all mutation sits inside the `if let Some`
guard, so no `NodeNotFound` is ever raised.) -/
theorem update_missing_noop (s : MemoryStorage) (p : Pathway) (emb : List ℝ)
    (d : Digest) (h : s.existsNode p = false) :
    s.updateEmbedding p emb = s ∧ s.updateDigest p d = s := by
  rw [MemoryStorage.existsNode] at h
  have hg : assocGet p.render s.nodes = none := by
    cases hg : assocGet p.render s.nodes with
    | none => rfl
    | some n => rw [hg] at h; cases h
  constructor
  · rw [MemoryStorage.updateEmbedding, hg]
  · rw [MemoryStorage.updateDigest, hg]

/-- Witness for C10 at the empty store. -/
theorem update_missing_noop_witness :
    MemoryStorage.updateEmbedding emptyStore docsPath [1] = emptyStore ∧
    MemoryStorage.updateDigest emptyStore docsPath Digest.default = emptyStore :=
  update_missing_noop emptyStore docsPath [1] Digest.default (by decide)

/-- C9: `update_content` replaces the content, resets the digest to the
ungenerated default and sets the update timestamp to the supplied clock
value, touching nothing else; `update_embedding` rewrites exactly the
addressed node's embedding (every other field kept) and refreshes its
Similarity Index entry, leaving every other key alone; `update_digest`
rewrites exactly the addressed node's digest and leaves the Similarity
Index untouched. -/
theorem update_frame (n : Node) (c : List Char) (now : Nat) (s : MemoryStorage)
    (p : Pathway) (emb : List ℝ) (d : Digest) :
    ((n.updateContent c now).content = c ∧
     (n.updateContent c now).digest = Digest.default ∧
     (n.updateContent c now).updatedAt = now ∧
     (n.updateContent c now).embedding = n.embedding ∧
     (n.updateContent c now).pathway = n.pathway ∧
     (n.updateContent c now).kind = n.kind) ∧
    (∀ old, assocGet p.render s.nodes = some old →
      assocGet p.render (s.updateEmbedding p emb).nodes =
        some { old with embedding := emb } ∧
      (s.updateEmbedding p emb).vectorIndex.vectors =
        assocInsert p.render emb s.vectorIndex.vectors) ∧
    (∀ q, q ≠ p.render →
      assocGet q (s.updateEmbedding p emb).nodes = assocGet q s.nodes) ∧
    (∀ old, assocGet p.render s.nodes = some old →
      assocGet p.render (s.updateDigest p d).nodes =
        some { old with digest := d }) ∧
    (∀ q, q ≠ p.render →
      assocGet q (s.updateDigest p d).nodes = assocGet q s.nodes) ∧
    (s.updateDigest p d).vectorIndex = s.vectorIndex := by
  refine ⟨⟨rfl, rfl, rfl, rfl, rfl, rfl⟩, ?_, ?_, ?_, ?_, ?_⟩
  · intro old hold
    rw [MemoryStorage.updateEmbedding, hold]
    exact ⟨assocGet_insert_self _ _ _, rfl⟩
  · intro q hq
    rw [MemoryStorage.updateEmbedding]
    cases hold : assocGet p.render s.nodes with
    | none => rfl
    | some old => exact assocGet_insert_other _ _ _ _ hq
  · intro old hold
    rw [MemoryStorage.updateDigest, hold]
    exact assocGet_insert_self _ _ _
  · intro q hq
    rw [MemoryStorage.updateDigest]
    cases hold : assocGet p.render s.nodes with
    | none => rfl
    | some old => exact assocGet_insert_other _ _ _ _ hq
  · rw [MemoryStorage.updateDigest]
    cases hold : assocGet p.render s.nodes with
    | none => rfl
    | some old => rfl

/-- Witness for C9 on a concrete store and node. -/
theorem update_frame_witness :
    (apiNode.updateContent "new".toList 7).content = "new".toList ∧
    assocGet apiPath.render (c1store.updateEmbedding apiPath [2]).nodes =
      some { apiNode with embedding := [2] } ∧
    assocGet apiPath.render (c1store.updateDigest apiPath Digest.default).nodes =
      some { apiNode with digest := Digest.default } ∧
    (c1store.updateDigest apiPath Digest.default).vectorIndex =
      c1store.vectorIndex :=
  have hget : assocGet apiPath.render c1store.nodes = some apiNode := rfl
  have h := update_frame apiNode "new".toList 7 c1store apiPath [2] Digest.default
  ⟨h.1.1, (h.2.1 apiNode hget).1, h.2.2.2.1 apiNode hget, h.2.2.2.2.2⟩

theorem foldl_assocRemove {α : Type} :
    ∀ (ks : List (List Char)) (l : List (List Char × α)),
      ks.foldl (fun acc k => assocRemove k acc) l =
        l.filter fun e => decide (e.1 ∉ ks) := by
  intro ks
  induction ks with
  | nil =>
    intro l
    simp
  | cons k rest ih =>
    intro l
    rw [List.foldl_cons, ih (assocRemove k l), assocRemove, List.filter_filter]
    apply List.filter_congr
    intro e _
    by_cases h1 : e.1 ∈ rest
    · simp [h1]
    · by_cases h2 : e.1 = k <;> simp [h1, h2]

/-- C1 counterexample: put an embedded node at `a3s://knowledge/docs/api`,
then `remove("a3s://knowledge/docs", recursive = true)`: the node is gone
(`exists` is false) but the Similarity Index still contains its vector,
because recursive removal deletes only the addressed pathway's index
entry. -/
theorem remove_recursive_cex :
    c1removed.existsNode apiPath = false ∧
    (c1removed.vectorIndex.vectors.any fun e => e.1 = apiPath.render) = true := by
  exact ⟨rfl, rfl⟩

/-- C1 (amended): recursive removal deletes from the node map exactly the
nodes whose pathway the argument is a prefix of (hence the end-to-end
`exists` is false), but deletes only the addressed pathway's entry from
the Similarity Index; the removed descendants' vectors survive. -/
theorem remove_recursive (s : MemoryStorage) (p : Pathway)
    (hkeys : (s.nodes.map Prod.fst).Nodup) :
    (s.remove p true).nodes =
      s.nodes.filter (fun e => !(p.prefixOf e.2.pathway)) ∧
    (s.remove p true).vectorIndex.vectors =
      assocRemove p.render s.vectorIndex.vectors := by
  constructor
  · show ((s.nodes.filter fun e => p.prefixOf e.2.pathway).map Prod.fst).foldl
        (fun acc k => assocRemove k acc) s.nodes = _
    rw [foldl_assocRemove]
    apply List.filter_congr
    intro e he
    by_cases hp : p.prefixOf e.2.pathway = true
    · have hmem : e.1 ∈ (s.nodes.filter fun x => p.prefixOf x.2.pathway).map Prod.fst :=
        List.mem_map.mpr ⟨e, List.mem_filter.mpr ⟨he, hp⟩, rfl⟩
      simp [hmem, hp]
    · have hnm : e.1 ∉ (s.nodes.filter fun x => p.prefixOf x.2.pathway).map Prod.fst := by
        intro hmem
        obtain ⟨e2, he2, hk⟩ := List.mem_map.mp hmem
        obtain ⟨he2s, hp2⟩ := List.mem_filter.mp he2
        have : e2 = e := List.inj_on_of_nodup_map hkeys he2s he hk
        subst this
        exact hp hp2
      simp [hnm, hp]
  · rfl

/-- Witness for the amended C1 on the end-to-end scenario store. -/
theorem remove_recursive_witness :
    c1removed.nodes =
      c1store.nodes.filter (fun e => !(docsPath.prefixOf e.2.pathway)) ∧
    c1removed.vectorIndex.vectors =
      assocRemove docsPath.render c1store.vectorIndex.vectors :=
  remove_recursive c1store docsPath (by decide)

theorem cosine_one_one : cosineSimilarity [1] [1] = 1 := by
  have hsq : sumsq [1] = (1 : ℝ) := by norm_num [sumsq_cons, sumsq_nil]
  have hd : dotp [1] [1] = (1 : ℝ) := by norm_num [dotp_cons, dotp_nil]
  rw [cosineSimilarity, if_neg (by simp), hsq, hd, Real.sqrt_one]
  norm_num

theorem mem_processChildren_of_mem {q : List ℝ} {th : ℝ} :
    ∀ (cs : List Node) (acc : List MatchedNode) (m : MatchedNode),
      m ∈ acc → m ∈ processChildren q th cs acc := by
  intro cs
  induction cs with
  | nil => intro acc m hm; exact hm
  | cons c rest ih =>
    intro acc m hm
    rw [processChildren]
    split
    · exact ih acc m hm
    · dsimp only
      split
      · split
        · exact ih acc m hm
        · exact ih _ m (List.mem_append_left _ hm)
      · exact ih acc m hm

theorem processChildren_complete {q : List ℝ} {th : ℝ} :
    ∀ (cs : List Node) (acc : List MatchedNode) (c : Node),
      c ∈ cs → c.isDirectory = false → c.embedding.isEmpty = false →
      th ≤ cosineSimilarity q c.embedding →
      c.pathway ∈ (processChildren q th cs acc).map (·.pathway) := by
  intro cs
  induction cs with
  | nil => intro acc c hc; cases hc
  | cons c0 rest ih =>
    intro acc c hc hdir hemb hth
    rcases List.mem_cons.mp hc with rfl | hc
    · rw [processChildren, if_neg (by simp [hdir, hemb])]
      dsimp only
      rw [if_pos hth]
      by_cases hany : (acc.any fun r => r.pathway = c.pathway) = true
      · rw [if_pos hany]
        obtain ⟨r, hr, hrp⟩ := List.any_eq_true.mp hany
        exact List.mem_map.mpr
          ⟨r, mem_processChildren_of_mem rest acc r hr, by simpa using hrp⟩
      · rw [if_neg hany]
        refine List.mem_map.mpr ⟨_, mem_processChildren_of_mem rest _ _
          (List.mem_append_right _ (List.mem_singleton.mpr rfl)), rfl⟩
    · rw [processChildren]
      split
      · exact ih acc c hc hdir hemb hth
      · dsimp only
        split
        · split
          · exact ih acc c hc hdir hemb hth
          · exact ih _ c hc hdir hemb hth
        · exact ih acc c hc hdir hemb hth

theorem processChildren_nodup {q : List ℝ} {th : ℝ} :
    ∀ (cs : List Node) (acc : List MatchedNode),
      (acc.map (·.pathway)).Nodup →
      ((processChildren q th cs acc).map (·.pathway)).Nodup := by
  intro cs
  induction cs with
  | nil => intro acc h; exact h
  | cons c rest ih =>
    intro acc h
    rw [processChildren]
    split
    · exact ih acc h
    · dsimp only
      split
      · split
        · exact ih acc h
        · next hany =>
          apply ih
          rw [List.map_append, List.nodup_append]
          refine ⟨h, by simp, ?_⟩
          intro a ha hb
          rw [show List.map (fun m : MatchedNode => m.pathway)
              [⟨c.pathway, c.kind, cosineSimilarity q c.embedding,
                c.digest.brief, some c.digest.summary, none, []⟩] = [c.pathway]
              from rfl, List.mem_singleton] at hb
          subst hb
          obtain ⟨r, hr, hrp⟩ := List.mem_map.mp ha
          exact hany (List.any_eq_true.mpr ⟨r, hr, by simpa using hrp⟩)
      · exact ih acc h

theorem mem_secondPass_of_mem {store : MemoryStorage} {q : List ℝ} {th : ℝ} :
    ∀ (dirs : List Pathway) (acc : List MatchedNode) (m : MatchedNode),
      m ∈ acc → m ∈ secondPass store q th dirs acc := by
  intro dirs
  induction dirs with
  | nil => intro acc m hm; exact hm
  | cons d rest ih =>
    intro acc m hm
    rw [secondPass]
    exact ih _ m (mem_processChildren_of_mem _ acc m hm)

theorem secondPass_nodup {store : MemoryStorage} {q : List ℝ} {th : ℝ} :
    ∀ (dirs : List Pathway) (acc : List MatchedNode),
      (acc.map (·.pathway)).Nodup →
      ((secondPass store q th dirs acc).map (·.pathway)).Nodup := by
  intro dirs
  induction dirs with
  | nil => intro acc h; exact h
  | cons d rest ih =>
    intro acc h
    rw [secondPass]
    exact ih _ (processChildren_nodup _ acc h)

theorem secondPass_complete {store : MemoryStorage} {q : List ℝ} {th : ℝ} :
    ∀ (dirs : List Pathway) (acc : List MatchedNode) (d : Pathway),
      d ∈ dirs → ∀ c ∈ store.getChildren d 2,
      c.isDirectory = false → c.embedding.isEmpty = false →
      th ≤ cosineSimilarity q c.embedding →
      c.pathway ∈ (secondPass store q th dirs acc).map (·.pathway) := by
  intro dirs
  induction dirs with
  | nil => intro acc d hd; cases hd
  | cons d0 rest ih =>
    intro acc d hd c hc hdir hemb hth
    rcases List.mem_cons.mp hd with rfl | hd
    · rw [secondPass]
      obtain ⟨m, hm, hmp⟩ := List.mem_map.mp
        (processChildren_complete (store.getChildren d 2) acc c hc hdir hemb hth)
      exact List.mem_map.mpr ⟨m, mem_secondPass_of_mem rest _ m hm, hmp⟩
    · rw [secondPass]
      exact ih _ d hd c hc hdir hemb hth

theorem firstPass_mem_of_mem {store : MemoryStorage} {th : ℝ} :
    ∀ (cands : List (Pathway × ℝ)) (results : List MatchedNode)
      (dirs : List Pathway) (res0 : List MatchedNode) (dirs0 : List Pathway)
      (m : MatchedNode),
      firstPass store th cands results dirs = .ok (res0, dirs0) →
      m ∈ results → m ∈ res0 := by
  intro cands
  induction cands with
  | nil =>
    intro results dirs res0 dirs0 m h hm
    rw [firstPass] at h
    cases h
    exact hm
  | cons pq rest ih =>
    intro results dirs res0 dirs0 m h hm
    obtain ⟨p, score⟩ := pq
    rw [firstPass] at h
    split at h
    · exact ih _ _ _ _ m h hm
    · cases hg : store.get p with
      | error e => rw [hg] at h; cases h
      | ok node =>
        rw [hg] at h
        dsimp only at h
        split at h
        · exact ih _ _ _ _ m h hm
        · exact ih _ _ _ _ m h (List.mem_append_left _ hm)

theorem firstPass_mem {store : MemoryStorage} {th : ℝ} :
    ∀ (cands : List (Pathway × ℝ)) (results : List MatchedNode)
      (dirs : List Pathway) (res0 : List MatchedNode) (dirs0 : List Pathway),
      firstPass store th cands results dirs = .ok (res0, dirs0) →
      ∀ p s node, (p, s) ∈ cands → ¬ s < th → store.get p = .ok node →
        node.isDirectory = false → p ∈ res0.map (·.pathway) := by
  intro cands
  induction cands with
  | nil =>
    intro results dirs res0 dirs0 h p s node hpc
    cases hpc
  | cons pq rest ih =>
    intro results dirs res0 dirs0 h p s node hpc hth hget hdir
    obtain ⟨p0, s0⟩ := pq
    rcases List.mem_cons.mp hpc with heq | hpc
    · injection heq with h1 h2
      subst h1
      subst h2
      rw [firstPass, if_neg hth, hget] at h
      dsimp only at h
      rw [if_neg (by simp [hdir])] at h
      have hmem : (⟨p, node.kind, s, node.digest.brief, some node.digest.summary,
          none, []⟩ : MatchedNode) ∈ res0 :=
        firstPass_mem_of_mem rest _ _ _ _ _ h
          (List.mem_append_right _ (List.mem_singleton.mpr rfl))
      exact List.mem_map.mpr ⟨_, hmem, rfl⟩
    · rw [firstPass] at h
      split at h
      · exact ih _ _ _ _ h p s node hpc hth hget hdir
      · cases hg : store.get p0 with
        | error e => rw [hg] at h; cases h
        | ok node0 =>
          rw [hg] at h
          dsimp only at h
          split at h
          · exact ih _ _ _ _ h p s node hpc hth hget hdir
          · exact ih _ _ _ _ h p s node hpc hth hget hdir

theorem firstPass_nodup {store : MemoryStorage} {th : ℝ} :
    ∀ (cands : List (Pathway × ℝ)) (results : List MatchedNode)
      (dirs : List Pathway) (res0 : List MatchedNode) (dirs0 : List Pathway),
      firstPass store th cands results dirs = .ok (res0, dirs0) →
      (results.map (·.pathway)).Nodup →
      (cands.map Prod.fst).Nodup →
      (∀ pq ∈ cands, pq.1 ∉ results.map (·.pathway)) →
      (res0.map (·.pathway)).Nodup := by
  intro cands
  induction cands with
  | nil =>
    intro results dirs res0 dirs0 h hres _ _
    rw [firstPass] at h
    cases h
    exact hres
  | cons pq rest ih =>
    intro results dirs res0 dirs0 h hres hcn hdisj
    obtain ⟨p, s⟩ := pq
    have hcn2 : (rest.map Prod.fst).Nodup := (List.nodup_cons.mp hcn).2
    have hpn : p ∉ rest.map Prod.fst := (List.nodup_cons.mp hcn).1
    rw [firstPass] at h
    split at h
    · exact ih _ _ _ _ h hres hcn2
        fun pq2 hpq2 => hdisj pq2 (List.mem_cons_of_mem _ hpq2)
    · cases hg : store.get p with
      | error e => rw [hg] at h; cases h
      | ok node =>
        rw [hg] at h
        dsimp only at h
        split at h
        · exact ih _ _ _ _ h hres hcn2
            fun pq2 hpq2 => hdisj pq2 (List.mem_cons_of_mem _ hpq2)
        · apply ih _ _ _ _ h
          · rw [List.map_append, List.nodup_append]
            refine ⟨hres, by simp, ?_⟩
            intro a ha hb
            rw [show List.map (fun m : MatchedNode => m.pathway)
                [⟨p, node.kind, s, node.digest.brief, some node.digest.summary,
                  none, []⟩] = [p] from rfl, List.mem_singleton] at hb
            subst hb
            exact hdisj (a, s) (List.mem_cons_self _ _) ha
          · exact hcn2
          · intro pq2 hpq2
            rw [List.map_append, List.mem_append]
            rintro (hL | hR)
            · exact hdisj pq2 (List.mem_cons_of_mem _ hpq2) hL
            · rw [show List.map (fun m : MatchedNode => m.pathway)
                  [⟨p, node.kind, s, node.digest.brief, some node.digest.summary,
                    none, []⟩] = [p] from rfl, List.mem_singleton] at hR
              exact hpn (hR ▸ List.mem_map.mpr ⟨pq2, hpq2, rfl⟩)

/-- C5: when the initial candidates carry pairwise-distinct pathways (as a
similarity-index search yields), the hierarchical search result mentions
every pathway at most once, and every surviving non-directory direct hit
is present — so a leaf reachable both as a direct hit and as an expanded
descendant appears exactly once. -/
theorem hierarchical_dedup (store : MemoryStorage) (q : List ℝ)
    (cands : List (Pathway × ℝ)) (limit maxDepth : Nat) (threshold : ℝ)
    (res : List MatchedNode)
    (hns : (cands.map Prod.fst).Nodup)
    (hall : hierarchicalSearch store q cands limit maxDepth threshold = .ok res) :
    (res.map (·.pathway)).Nodup ∧
    ∀ p s node, (p, s) ∈ cands → ¬ s < threshold → store.get p = .ok node →
      node.isDirectory = false → p ∈ res.map (·.pathway) := by
  rw [hierarchicalSearch] at hall
  cases hfp : firstPass store threshold cands [] [] with
  | error e => rw [hfp] at hall; cases hall
  | ok pr =>
    obtain ⟨res0, dirs⟩ := pr
    rw [hfp] at hall
    dsimp only at hall
    cases hall
    constructor
    · exact secondPass_nodup _ _
        (firstPass_nodup cands [] [] res0 dirs hfp (by simp) hns (by simp))
    · intro p s node hpc hth hget hdir
      obtain ⟨m, hm, hmp⟩ := List.mem_map.mp
        (firstPass_mem cands [] [] res0 dirs hfp p s node hpc hth hget hdir)
      exact List.mem_map.mpr ⟨m, mem_secondPass_of_mem _ res0 m hm, hmp⟩

/-- Witness for C5 on a one-node store with a single direct leaf hit. -/
theorem hierarchical_dedup_witness :
    ((([⟨c5leaf, .memory, 1, [], some [], none, []⟩] : List MatchedNode)).map
      (·.pathway)).Nodup ∧
    (∀ p s node, (p, s) ∈ [(c5leaf, (1 : ℝ))] → ¬ s < (0 : ℝ) →
      c5store.get p = .ok node → node.isDirectory = false →
      p ∈ (([⟨c5leaf, .memory, 1, [], some [], none, []⟩] :
        List MatchedNode)).map (·.pathway)) := by
  have hfp5 : firstPass c5store 0 [(c5leaf, 1)] [] [] =
      .ok ([⟨c5leaf, .memory, 1, [], some [], none, []⟩],
        [⟨.memory, []⟩]) := by
    rw [firstPass, if_neg (by norm_num : ¬(1 : ℝ) < 0),
      show MemoryStorage.get c5store c5leaf = .ok c5leafNode from rfl]
    dsimp only
    rw [if_neg (by simp [show c5leafNode.isDirectory = false from rfl])]
    rfl
  have hall5 : hierarchicalSearch c5store [1] [(c5leaf, 1)] 10 3 0 =
      .ok [⟨c5leaf, .memory, 1, [], some [], none, []⟩] := by
    rw [hierarchicalSearch, hfp5]
    rfl
  exact hierarchical_dedup c5store [1] [(c5leaf, 1)] 10 3 0 _ (by decide) hall5

/-- C2 counterexample: with configured `max_depth = 5`, the directory
`a3s://knowledge/d` is a direct hit and is marked for expansion, and the
embedded non-directory node at `a3s://knowledge/d/x/y/z` sits 3 ≤ 5
levels below it with score `1 ≥ 0` — yet the search returns nothing,
because the code fetches only two levels below each marked directory
(`get_children(dir, 2)`), using `max_depth` merely to cap how many
directories are expanded. -/
theorem hierarchical_expansion_cex :
    c2dirNode.isDirectory = true ∧
    firstPass c2store 0 [(c2dir, 1)] [] [] = .ok ([], [c2dir]) ∧
    (c2dir.prefixOf c2deepNode.pathway) = true ∧
    c2deepNode.pathway.depth - c2dir.depth = 3 ∧
    c2deepNode.isDirectory = false ∧
    c2deepNode.embedding.isEmpty = false ∧
    (0 : ℝ) ≤ cosineSimilarity [1] c2deepNode.embedding ∧
    hierarchicalSearch c2store [1] [(c2dir, 1)] 10 5 0 = .ok [] := by
  have hfp2 : firstPass c2store 0 [(c2dir, 1)] [] [] = .ok ([], [c2dir]) := by
    rw [firstPass, if_neg (by norm_num : ¬(1 : ℝ) < 0),
      show MemoryStorage.get c2store c2dir = .ok c2dirNode from rfl]
    dsimp only
    rw [if_pos (show c2dirNode.isDirectory = true from rfl)]
    rfl
  refine ⟨rfl, hfp2, rfl, rfl, rfl, rfl, ?_, ?_⟩
  · rw [show c2deepNode.embedding = [1] from rfl, cosine_one_one]
    norm_num
  · rw [hierarchicalSearch, hfp2]
    rfl

/-- C2 (amended): during hierarchical search the retriever expands only
the first `max_depth` marked directories, and for each of those fetches
descendants only up to two levels below it; every embedded, non-directory
descendant within those two levels whose score meets the threshold ends
up in the result. -/
theorem hierarchical_expansion (store : MemoryStorage) (q : List ℝ)
    (cands : List (Pathway × ℝ)) (limit maxDepth : Nat) (threshold : ℝ)
    (res0 : List MatchedNode) (dirs : List Pathway) (res : List MatchedNode)
    (hfp : firstPass store threshold cands [] [] = .ok (res0, dirs))
    (hall : hierarchicalSearch store q cands limit maxDepth threshold = .ok res)
    (d : Pathway) (hd : d ∈ dirs.take maxDepth)
    (c : Node) (hc : c ∈ store.getChildren d 2)
    (hdir : c.isDirectory = false) (hemb : c.embedding.isEmpty = false)
    (hth : threshold ≤ cosineSimilarity q c.embedding) :
    c.pathway ∈ res.map (·.pathway) := by
  rw [hierarchicalSearch, hfp] at hall
  dsimp only at hall
  cases hall
  exact secondPass_complete _ res0 d hd c hc hdir hemb hth

/-- Witness for the amended C2: a directory hit whose embedded child one
level down makes it into the result. -/
theorem hierarchical_expansion_witness :
    c2wLeaf ∈ (([⟨c2wLeaf, .document, cosineSimilarity [1] [1], [],
      some [], none, []⟩] : List MatchedNode)).map (·.pathway) := by
  have hfpw : firstPass c2wStore 0 [(c2wDir, 1)] [] [] = .ok ([], [c2wDir]) := by
    rw [firstPass, if_neg (by norm_num : ¬(1 : ℝ) < 0),
      show MemoryStorage.get c2wStore c2wDir = .ok c2wDirNode from rfl]
    dsimp only
    rw [if_pos (show c2wDirNode.isDirectory = true from rfl)]
    rfl
  have hpc : processChildren [1] (0 : ℝ) [c2wLeafNode] [] =
      [⟨c2wLeaf, .document, cosineSimilarity [1] [1], [], some [], none, []⟩] := by
    rw [processChildren,
      if_neg (by simp [show c2wLeafNode.isDirectory = false from rfl,
        show c2wLeafNode.embedding = [1] from rfl])]
    dsimp only
    rw [show c2wLeafNode.embedding = [1] from rfl,
      if_pos (by rw [cosine_one_one]; norm_num : (0 : ℝ) ≤ cosineSimilarity [1] [1]),
      if_neg (by simp)]
    rfl
  have hallw : hierarchicalSearch c2wStore [1] [(c2wDir, 1)] 10 1 0 =
      .ok [⟨c2wLeaf, .document, cosineSimilarity [1] [1], [],
        some [], none, []⟩] := by
    rw [hierarchicalSearch, hfpw]
    dsimp only
    rw [show List.take 1 [c2wDir] = [c2wDir] from rfl, secondPass,
      show MemoryStorage.getChildren c2wStore c2wDir 2 = [c2wLeafNode] from rfl,
      hpc, secondPass]
  have hchild : c2wLeafNode ∈ c2wStore.getChildren c2wDir 2 := by
    rw [show MemoryStorage.getChildren c2wStore c2wDir 2 = [c2wLeafNode] from rfl]
    exact List.mem_singleton.mpr rfl
  exact hierarchical_expansion c2wStore [1] [(c2wDir, 1)] 10 1 0 [] [c2wDir] _
    hfpw hallw c2wDir (by decide) c2wLeafNode hchild rfl rfl
    (by rw [show c2wLeafNode.embedding = [1] from rfl, cosine_one_one]; norm_num)

end A3S
